import Mathlib

/-!
Shallow embedding of the instantiation-causality-graph core of
`src/main.rs` (the `Profiler` type: `Profiler::parse`,
`Profiler::make_instantiation_graph`, `Profiler::total_instantiations`,
`Profiler::print_stats`).

Modelling conventions:
* `u64` / `usize` values are `Nat`; arithmetic that the source performs on
  `u64` (the sort key multiplication, the running total, `100 * count`) is
  reduced modulo `W = 2 ^ 64`, matching Rust release-mode wrap-around.
* The z3tracer `Ident` type is an opaque lookup key in this program, so it
  is modelled as `Nat` (`TermId`).  z3tracer record fields that the profiler
  never reads (e.g. the `trigger` and `terms` fields of `QiFrame::NewMatch`)
  are omitted.
* `model.instantiations()` is a `BTreeMap<QiKey, QuantInstantiation>`; it is
  modelled as an association list in iteration order.  A real `BTreeMap` has
  pairwise-distinct keys; where a claim needs that fact it appears as the
  explicit well-formedness hypothesis `Model.WF`.
* The `HashMap`/`HashSet`/`BTreeSet` collections that the pass builds are
  modelled as association lists / duplicate-free lists built by the same
  insertions the source performs; their iteration order is irrelevant to the
  source (they are unordered collections) and all claims about them are
  membership statements.
* Rust panics (`panic!`, `.unwrap()`, `.expect(..)`, division by zero) are
  modelled as `Except.error` / `Option.none` outcomes.
-/

/-- The modulus of Rust `u64` arithmetic, `2 ^ 64`. -/
def W : Nat := 2 ^ 64

/-- Opaque identifier of a logical term (z3tracer `Ident`): used by this
program purely as a lookup key. -/
abbrev TermId := Nat

/-- z3tracer `QiKey`: `key: u64` together with `version: usize`.  The source
projects it to the pair `(key, version)`, which is the identity on these two
fields, so the same type serves for both. -/
structure QiKey where
  key : Nat
  version : Nat
deriving DecidableEq, Repr

/-- z3tracer `MatchedTerm`: either a trigger term or an equality fact. -/
inductive MatchedTerm where
  | Trigger (t : TermId)
  | Equality (t1 t2 : TermId)
deriving DecidableEq, Repr

/-- z3tracer `QiFrame`.  The profiler reads only the variant tag, the
`used` list of a `NewMatch`, and the quantifier reference (via
`frame.quantifier()`), so only those fields are modelled. -/
inductive QiFrame where
  | Discovered (quantifier : TermId)
  | NewMatch (quantifier : TermId) (used : List MatchedTerm)
deriving DecidableEq, Repr

/-- z3tracer `QiFrame::quantifier()`: the quantifier reference of either
variant. -/
def QiFrame.quantifier : QiFrame → TermId
  | .Discovered q => q
  | .NewMatch q _ => q

/-- One entry of `quant_inst.instances`; the profiler reads only its
`enodes` list. -/
structure QiInstance where
  enodes : List TermId
deriving DecidableEq, Repr

/-- z3tracer `QuantInstantiation`: the value type of
`model.instantiations()`. -/
structure QuantInstantiation where
  frame : QiFrame
  instances : List QiInstance
deriving DecidableEq, Repr

/-- z3tracer `QuantCost`: per-quantifier aggregate returned by
`model.quant_costs()`. -/
structure QuantCost where
  quant : String
  instantiations : Nat
  cost : Nat
deriving DecidableEq, Repr

/-- The slice of the z3tracer `Model` that the profiler consumes:
* `instantiations` — `model.instantiations()`, an association list in the
  `BTreeMap` iteration order;
* `termNames` — the term table as seen through `model.term(ident)` followed
  by `.name()`: an entry `(i, some s)` is a term with a name, `(i, none)` a
  term whose `name()` is `None`, and a missing entry a failing
  `model.term(ident)` lookup;
* `quantCosts` — `model.quant_costs()` in its original order. -/
structure Model where
  instantiations : List (QiKey × QuantInstantiation)
  termNames : List (TermId × Option String)
  quantCosts : List QuantCost
deriving Repr

/-- Composition of `model.term(ident)` with `.name()`: `none` models a failing
term lookup, `some none` a term without a name. -/
def Model.termName (m : Model) (i : TermId) : Option (Option String) :=
  (m.termNames.find? (fun p => decide (p.1 = i))).map (·.2)

/-- Well-formedness of the modelled trace: `instantiations` came from a
`BTreeMap`, whose keys are pairwise distinct. -/
def Model.WF (m : Model) : Prop :=
  (m.instantiations.map Prod.fst).Nodup

/-- The filter `quant_inst.frame` is `NewMatch` (the closure passed to
`.filter(..)` in `make_instantiation_graph`). -/
def isNewMatchB (qi : QuantInstantiation) : Bool :=
  match qi.frame with
  | .Discovered _ => false
  | .NewMatch _ _ => true

/-- The `quantifier_inst_matches` collection: the instantiation records restricted to
`NewMatch` frames, in iteration order. -/
def quantifierInstMatches (m : Model) : List (QiKey × QuantInstantiation) :=
  m.instantiations.filter (fun p => isNewMatchB p.2)

/-- The innermost loop of the blame pass — for each `node_ident` of
`inst.enodes`, `term_blame.insert(node_ident, qi_key)` — as successive
updates of a lookup function (a `HashMap` read only through `get`). -/
def blameEnodes (k : QiKey) (bl : TermId → Option QiKey) :
    List TermId → (TermId → Option QiKey)
  | [] => bl
  | n :: rest => blameEnodes k (fun t => if t = n then some k else bl t) rest

/-- The middle loop of the blame pass: `for inst in &quant_inst.instances`. -/
def blameInstances (k : QiKey) (bl : TermId → Option QiKey) :
    List QiInstance → (TermId → Option QiKey)
  | [] => bl
  | inst :: rest => blameInstances k (blameEnodes k bl inst.enodes) rest

/-- The outer loop of the blame pass: `for (qi_key, quant_inst) in
quantifier_inst_matches.clone()`. -/
def blameRecords (bl : TermId → Option QiKey) :
    List (QiKey × QuantInstantiation) → (TermId → Option QiKey)
  | [] => bl
  | (k, qi) :: rest => blameRecords (blameInstances k bl qi.instances) rest

/-- The `term_blame` map: which instantiation caused which enode to appear. -/
def term_blame (m : Model) : TermId → Option QiKey :=
  blameRecords (fun _ => none) (quantifierInstMatches m)

/-- The intermediate `BTreeMap<QiKey, BTreeSet<QiKey>>` adjacency, as an
association list with duplicate-free target lists. -/
abbrev RawGraph := List (QiKey × List QiKey)

/-- The panic / abort outcomes of `make_instantiation_graph`. -/
inductive BuildError where
  | discoveredInstance
  | responsibleNotFound
  | instNotFound
  | termNotFound
  | nameMissing
deriving DecidableEq, Repr

/-- Set-semantics insertion (`BTreeSet::insert` / `HashSet::insert`). -/
def insertSet (a : QiKey) (l : List QiKey) : List QiKey :=
  if a ∈ l then l else a :: l

/-- Lookup `graph.get_mut(&qi_responsible)` followed by `resp_edges.insert(*qi_key)`;
a missing responsible key is the `panic!("Responsible qikey not found!")`. -/
def addEdgeResp (g : RawGraph) (resp tgt : QiKey) : Except BuildError RawGraph :=
  match g.find? (fun p => decide (p.1 = resp)) with
  | none => .error .responsibleNotFound
  | some _ => .ok (g.map (fun p => if p.1 = resp then (p.1, insertSet tgt p.2) else p))

/-- The `for used in u.iter()` loop of the edge-creation pass for one
`NewMatch` record with key `qk`: `Trigger(t)` consults `term_blame` and adds
an edge from the responsible key to `qk`; `Equality` is ignored. -/
def processUsedList (m : Model) (qk : QiKey) (g : RawGraph) :
    List MatchedTerm → Except BuildError RawGraph
  | [] => .ok g
  | .Trigger t :: rest =>
    match term_blame m t with
    | none => processUsedList m qk g rest
    | some resp =>
      match addEdgeResp g resp qk with
      | .error e => .error e
      | .ok g2 => processUsedList m qk g2 rest
  | .Equality _ _ :: rest => processUsedList m qk g rest

/-- The edge-creation loop over the filtered records; a `Discovered` frame
here is the `panic!("We filtered out all of the Discovered instances
already!")`. -/
def processRecords (m : Model) (g : RawGraph) :
    List (QiKey × QuantInstantiation) → Except BuildError RawGraph
  | [] => .ok g
  | (qk, qi) :: rest =>
    match qi.frame with
    | .Discovered _ => .error .discoveredInstance
    | .NewMatch _ used =>
      match processUsedList m qk g used with
      | .error e => .error e
      | .ok g2 => processRecords m g2 rest

/-- The raw adjacency of `make_instantiation_graph`: one empty entry per
`NewMatch` key (`graph.insert(*qi_key, BTreeSet::new())`), then the
edge-creation pass. -/
def buildRawGraph (m : Model) : Except BuildError RawGraph :=
  processRecords m ((quantifierInstMatches m).map (fun p => (p.1, ([] : List QiKey))))
    (quantifierInstMatches m)

/-- An association-list update mirroring
`edges.entry(src).or_insert(HashSet::new()).insert(tgt)`. -/
def upsertEdge (edges : RawGraph) (src tgt : QiKey) : RawGraph :=
  if (edges.find? (fun p => decide (p.1 = src))).isSome then
    edges.map (fun p => if p.1 = src then (p.1, insertSet tgt p.2) else p)
  else edges ++ [(src, [tgt])]

/-- The inner `for tgt in tgts` loop of the collapse block: record the edge
and insert the target into the node set. -/
def collapseTargets (src : QiKey) (acc : RawGraph × List QiKey) :
    List QiKey → RawGraph × List QiKey
  | [] => acc
  | tgt :: rest =>
    collapseTargets src (upsertEdge acc.1 src tgt, insertSet tgt acc.2) rest

/-- The `for (src, tgts) in graph.iter()` collapse loop: insert the source
into the node set, then process its targets. -/
def collapseEntries (acc : RawGraph × List QiKey) :
    RawGraph → RawGraph × List QiKey
  | [] => acc
  | (src, tgts) :: rest =>
    collapseEntries (collapseTargets src (acc.1, insertSet src acc.2) tgts) rest

/-- The collapse block of `make_instantiation_graph`: the externally visible
`edges` map and `nodes` set (the source also projects `QiKey` to
`(key, version)` here, which is the identity on the modelled fields). -/
def collapseGraph (g : RawGraph) : RawGraph × List QiKey :=
  collapseEntries ([], []) g

/-- Resolution of the display name of one node:
`model.instantiations().get(&k).unwrap().frame.quantifier()` followed by
`model.term(ident).expect("not found").name().unwrap()`; each panic is a
distinct error. -/
def resolveName (m : Model) (k : QiKey) : Except BuildError String :=
  match m.instantiations.find? (fun p => decide (p.1 = k)) with
  | none => .error .instNotFound
  | some p =>
    match m.termName p.2.frame.quantifier with
    | none => .error .termNotFound
    | some none => .error .nameMissing
    | some (some s) => .ok s

/-- The `names` collection: resolve every node of the final node set. -/
def resolveNames (m : Model) : List QiKey → Except BuildError (List (QiKey × String))
  | [] => .ok []
  | k :: ks =>
    match resolveName m k with
    | .error e => .error e
    | .ok s =>
      match resolveNames m ks with
      | .error e => .error e
      | .ok rest => .ok ((k, s) :: rest)

/-- The artifact of `make_instantiation_graph` (`(u64, usize)` keys are the
two fields of `QiKey`). -/
structure InstantiationGraph where
  edges : RawGraph
  names : List (QiKey × String)
  nodes : List QiKey
deriving DecidableEq, Repr

/-- Embedding of `Profiler::make_instantiation_graph`, with every panic as an error. -/
def make_instantiation_graph (m : Model) : Except BuildError InstantiationGraph :=
  match buildRawGraph m with
  | .error e => .error e
  | .ok raw =>
    match resolveNames m (collapseGraph raw).2 with
    | .error e => .error e
    | .ok names => .ok ⟨(collapseGraph raw).1, names, (collapseGraph raw).2⟩

/-- The ranking sort key `v.instantiations * v.cost`, a `u64` product. -/
def mulKey (v : QuantCost) : Nat := (v.instantiations * v.cost) % W

/-- Stable ascending insertion by `mulKey`: an element is placed after every
earlier element whose key is `≤` its own, which is exactly the tie behaviour
of the stable Rust `sort_by_key`. -/
def insertAsc (a : QuantCost) : List QuantCost → List QuantCost
  | [] => [a]
  | b :: l => if mulKey a ≤ mulKey b then a :: b :: l else b :: insertAsc a l

/-- Stable ascending sort by `mulKey` (`user_quant_costs.sort_by_key(..)`). -/
def sortByKeyAsc : List QuantCost → List QuantCost
  | [] => []
  | a :: l => insertAsc a (sortByKeyAsc l)

/-- The ranked cost sequence of `Profiler::parse`: stable ascending sort by
`instantiations * cost`, then `reverse()`. -/
def rankedQuantifierCosts (costs : List QuantCost) : List QuantCost :=
  (sortByKeyAsc costs).reverse

/-- The `Profiler` value assembled by `Profiler::parse` (file I/O and log
parsing live in the external z3tracer model provider and are not part of
this core). -/
structure Profiler where
  quantifier_stats : List QuantCost
  instantiation_graph : InstantiationGraph
deriving Repr

/-- Embedding of `Profiler::parse`, from an already-materialized model. -/
def Profiler.parse (m : Model) : Except BuildError Profiler :=
  match make_instantiation_graph m with
  | .error e => .error e
  | .ok g => .ok ⟨rankedQuantifierCosts m.quantCosts, g⟩

/-- Embedding of `Profiler::total_instantiations`: a `u64` running sum (each addition
wraps). -/
def total_instantiations (stats : List QuantCost) : Nat :=
  stats.foldl (fun acc cost => (acc + cost.instantiations) % W) 0

/-- The data reported by one line of `Profiler::print_stats` (the source
formats these three fields into the printed string). -/
structure StatLine where
  quant : String
  count : Nat
  pct : Nat
deriving DecidableEq, Repr

/-- The `for cost in &self.quantifier_stats` loop of `print_stats`; `none`
models the division-by-zero panic of `100 * count / total` when `total` is
zero (the multiplication itself wraps at `W`). -/
def printLoop (total : Nat) : List QuantCost → Option (List StatLine)
  | [] => some []
  | c :: cs =>
    if total = 0 then none
    else (printLoop total cs).map
      (fun rest => ⟨c.quant, c.instantiations, 100 * c.instantiations % W / total⟩ :: rest)

/-- Embedding of `Profiler::print_stats` over a stats sequence. -/
def print_stats (stats : List QuantCost) : Option (List StatLine) :=
  printLoop (total_instantiations stats) stats

/-- All enodes produced by a list of instantiation instances, in the order
the blame pass visits them. -/
def enodesOf : List QiInstance → List TermId
  | [] => []
  | inst :: rest => inst.enodes ++ enodesOf rest

/-- The produced terms of a record: every enode of every instance. -/
def producedTerms (qi : QuantInstantiation) : List TermId :=
  enodesOf qi.instances

/-- Statement-side description of the blame map content: the key of the
last record in iteration order that lists `t` among its produced terms
(later records take precedence — last write wins). -/
def lastProduced (t : TermId) : List (QiKey × QuantInstantiation) → Option QiKey
  | [] => none
  | (k, qi) :: rest =>
    match lastProduced t rest with
    | some k2 => some k2
    | none => if t ∈ producedTerms qi then some k else none

/-- Statement-side blame map: last `NewMatch` producer of `t` in iteration
order over records. -/
def blameSpec (m : Model) (t : TermId) : Option QiKey :=
  lastProduced t (quantifierInstMatches m)

/-- Decidable edge test on the final graph: `v` is among the targets of an
entry keyed `u` in `edges`. -/
def InstantiationGraph.hasEdgeB (g : InstantiationGraph) (u v : QiKey) : Bool :=
  g.edges.any (fun p => decide (p.1 = u) && decide (v ∈ p.2))

/-- Provenance of an edge `u → v`: `v` is the key of a `NewMatch` record
that used a `Trigger(t)` term with `term_blame t = u`. -/
def EdgeOK (m : Model) (u v : QiKey) : Prop :=
  ∃ qi q used t, (v, qi) ∈ m.instantiations ∧ qi.frame = .NewMatch q used ∧
    MatchedTerm.Trigger t ∈ used ∧ term_blame m t = some u

/-- Every target recorded in a raw adjacency has edge provenance. -/
def RawInv (m : Model) (g : RawGraph) : Prop :=
  ∀ p ∈ g, ∀ v ∈ p.2, EdgeOK m p.1 v

/-- Every key appearing in an edge collection, as source or target, belongs
to the node collection. -/
def NodesClosed (E : RawGraph) (N : List QiKey) : Prop :=
  ∀ q ∈ E, q.1 ∈ N ∧ ∀ v ∈ q.2, v ∈ N

/-- Every edge recorded in `E` already occurs in the raw adjacency `R`. -/
def EdgesSub (E R : RawGraph) : Prop :=
  ∀ q ∈ E, ∀ v ∈ q.2, ∃ p ∈ R, p.1 = q.1 ∧ v ∈ p.2

/-- Example cost entries of the ranking scenario in the spec. -/
def exQ1 : QuantCost := ⟨"Q1", 10, 2⟩

/-- Second entry of the ranking scenario. -/
def exQ2 : QuantCost := ⟨"Q2", 5, 10⟩

/-- A cost entry with product 20, for exhibiting tie behaviour. -/
def tieQ1 : QuantCost := ⟨"T1", 10, 2⟩

/-- A distinct cost entry with the same product 20. -/
def tieQ2 : QuantCost := ⟨"T2", 4, 5⟩

/-- Example key `A`. -/
def kA : QiKey := ⟨1, 0⟩

/-- Example key `B`. -/
def kB : QiKey := ⟨2, 0⟩

/-- Example key `C` (a `Discovered` record). -/
def kC : QiKey := ⟨3, 0⟩

/-- Example key `D` (uses a trigger with no traced producer). -/
def kD : QiKey := ⟨7, 1⟩

/-- Example model: `A` produces enode `5`; `B` uses `Trigger(5)`. -/
def mAB : Model where
  instantiations :=
    [(kA, ⟨.NewMatch 100 [], [⟨[5]⟩]⟩),
     (kB, ⟨.NewMatch 101 [.Trigger 5], []⟩)]
  termNames := [(100, some "qA"), (101, some "qB")]
  quantCosts := []

/-- The graph the pass produces for `mAB`. -/
def gAB : InstantiationGraph :=
  ⟨[(kA, [kB])], [(kB, "qB"), (kA, "qA")], [kB, kA]⟩

/-- Example model with a `Discovered` record `C` beside a `NewMatch`
record `A`. -/
def mDisc : Model where
  instantiations :=
    [(kC, ⟨.Discovered 102, []⟩),
     (kA, ⟨.NewMatch 100 [], []⟩)]
  termNames := [(100, some "qA"), (102, some "qC")]
  quantCosts := []

/-- The graph the pass produces for `mDisc`. -/
def gDisc : InstantiationGraph :=
  ⟨[], [(kA, "qA")], [kA]⟩

/-- Example model: a single `NewMatch` record `D` whose trigger term `42`
has no traced producer. -/
def mUnk : Model where
  instantiations := [(kD, ⟨.NewMatch 100 [.Trigger 42], []⟩)]
  termNames := [(100, some "qD")]
  quantCosts := []

/-- The graph the pass produces for `mUnk`: `D` is an isolated node. -/
def gUnk : InstantiationGraph :=
  ⟨[], [(kD, "qD")], [kD]⟩

/-- Example malformed model: the quantifier reference `999` of the only
record has no entry in the term table. -/
def mFail : Model where
  instantiations := [(kA, ⟨.NewMatch 999 [], []⟩)]
  termNames := []
  quantCosts := []

theorem blameEnodes_apply (k : QiKey) (ts : List TermId)
    (bl : TermId → Option QiKey) (t : TermId) :
    blameEnodes k bl ts t = if t ∈ ts then some k else bl t := by
  induction ts generalizing bl with
  | nil => simp [blameEnodes]
  | cons n rest ih =>
    simp only [blameEnodes, ih, List.mem_cons]
    by_cases h1 : t ∈ rest
    · simp [h1]
    · by_cases h2 : t = n <;> simp [h1, h2]

theorem blameInstances_apply (k : QiKey) (insts : List QiInstance)
    (bl : TermId → Option QiKey) (t : TermId) :
    blameInstances k bl insts t = if t ∈ enodesOf insts then some k else bl t := by
  induction insts generalizing bl with
  | nil => simp [blameInstances, enodesOf]
  | cons inst rest ih =>
    simp only [blameInstances, ih, enodesOf, List.mem_append, blameEnodes_apply]
    by_cases h1 : t ∈ enodesOf rest
    · simp [h1]
    · by_cases h2 : t ∈ inst.enodes <;> simp [h1, h2]

theorem blameRecords_apply (L : List (QiKey × QuantInstantiation))
    (bl : TermId → Option QiKey) (t : TermId) :
    blameRecords bl L t =
      match lastProduced t L with
      | some k => some k
      | none => bl t := by
  induction L generalizing bl with
  | nil => simp [blameRecords, lastProduced]
  | cons p rest ih =>
    obtain ⟨k, qi⟩ := p
    simp only [blameRecords, ih, blameInstances_apply, lastProduced]
    cases lastProduced t rest with
    | some k2 => simp
    | none =>
      by_cases h : t ∈ enodesOf qi.instances <;> simp [h, producedTerms]

theorem lastProduced_mem {t : TermId} {L : List (QiKey × QuantInstantiation)}
    {k : QiKey} (h : lastProduced t L = some k) :
    ∃ qi, (k, qi) ∈ L ∧ t ∈ producedTerms qi := by
  induction L with
  | nil => simp [lastProduced] at h
  | cons p rest ih =>
    obtain ⟨k2, qi⟩ := p
    simp only [lastProduced] at h
    cases hr : lastProduced t rest with
    | some k3 =>
      rw [hr] at h
      cases h
      obtain ⟨qi2, hm, hp⟩ := ih hr
      exact ⟨qi2, List.mem_cons_of_mem _ hm, hp⟩
    | none =>
      rw [hr] at h
      by_cases hp : t ∈ producedTerms qi
      · rw [if_pos hp] at h
        cases h
        exact ⟨qi, List.mem_cons_self _ _, hp⟩
      · rw [if_neg hp] at h
        exact absurd h (by simp)

theorem lastProduced_ne_none {t : TermId} {L : List (QiKey × QuantInstantiation)}
    {p : QiKey × QuantInstantiation} (hm : p ∈ L) (hp : t ∈ producedTerms p.2) :
    lastProduced t L ≠ none := by
  induction L with
  | nil => simp at hm
  | cons q rest ih =>
    obtain ⟨k, qi⟩ := q
    simp only [lastProduced]
    rcases List.mem_cons.mp hm with h | h
    · subst h
      cases hr : lastProduced t rest with
      | some k2 => simp
      | none => simp [hp]
    · cases hr : lastProduced t rest with
      | some k2 => simp
      | none => exact absurd hr (ih h)

theorem term_blame_apply (m : Model) (t : TermId) :
    term_blame m t = lastProduced t (quantifierInstMatches m) := by
  unfold term_blame
  rw [blameRecords_apply]
  cases lastProduced t (quantifierInstMatches m) <;> simp

theorem term_blame_mem_matches {m : Model} {t : TermId} {u : QiKey}
    (h : term_blame m t = some u) : ∃ qi, (u, qi) ∈ quantifierInstMatches m := by
  rw [term_blame_apply] at h
  obtain ⟨qi, hm, _⟩ := lastProduced_mem h
  exact ⟨qi, hm⟩

/-- C3: the blame map has an entry for a term exactly when some `NewMatch`
record lists it among its produced terms, and the entry is the key of the
last such record in iteration order (last write wins); absence of an entry
is an ordinary `none`, not an error. -/
theorem term_blame_last_write_wins (m : Model) (t : TermId) :
    term_blame m t = blameSpec m t ∧
      ((term_blame m t).isSome ↔
        ∃ k qi, (k, qi) ∈ m.instantiations ∧ isNewMatchB qi = true ∧
          t ∈ producedTerms qi) := by
  have h1 : term_blame m t = blameSpec m t := term_blame_apply m t
  refine ⟨h1, ?_⟩
  rw [h1]
  unfold blameSpec
  constructor
  · intro hs
    obtain ⟨k, hk⟩ := Option.isSome_iff_exists.mp hs
    obtain ⟨qi, hm, hp⟩ := lastProduced_mem hk
    have hf := List.mem_filter.mp hm
    exact ⟨k, qi, hf.1, hf.2, hp⟩
  · rintro ⟨k, qi, hm, hnm, hp⟩
    have hmem : (k, qi) ∈ quantifierInstMatches m :=
      List.mem_filter.mpr ⟨hm, hnm⟩
    have hne := lastProduced_ne_none (t := t) hmem hp
    cases h : lastProduced t (quantifierInstMatches m) with
    | some k2 => simp
    | none => exact absurd h hne

theorem addEdgeResp_ok {g : RawGraph} {resp : QiKey} (tgt : QiKey)
    (h : resp ∈ g.map Prod.fst) :
    ∃ g2, addEdgeResp g resp tgt = .ok g2 ∧ g2.map Prod.fst = g.map Prod.fst := by
  unfold addEdgeResp
  have hs : (g.find? (fun p => decide (p.1 = resp))).isSome := by
    rw [List.find?_isSome]
    obtain ⟨p, hp, he⟩ := List.mem_map.mp h
    exact ⟨p, hp, by simp [he]⟩
  obtain ⟨p0, hp0⟩ := Option.isSome_iff_exists.mp hs
  rw [hp0]
  refine ⟨_, rfl, ?_⟩
  rw [List.map_map]
  apply List.map_congr_left
  intro p hp
  by_cases hpe : p.1 = resp <;> simp [hpe]

theorem processUsedList_ok (m : Model) (qk : QiKey) (us : List MatchedTerm) :
    ∀ g : RawGraph, (∀ t u, term_blame m t = some u → u ∈ g.map Prod.fst) →
    ∃ g2, processUsedList m qk g us = .ok g2 ∧ g2.map Prod.fst = g.map Prod.fst := by
  induction us with
  | nil => exact fun g _ => ⟨g, rfl, rfl⟩
  | cons u rest ih =>
    intro g hg
    cases u with
    | Trigger t =>
      cases hb : term_blame m t with
      | none =>
        simp only [processUsedList, hb]
        exact ih g hg
      | some resp =>
        obtain ⟨g2, hok, hkeys⟩ := addEdgeResp_ok (g := g) qk (hg t resp hb)
        simp only [processUsedList, hb, hok]
        obtain ⟨g3, hok3, hkeys3⟩ :=
          ih g2 (fun t2 u2 h2 => by rw [hkeys]; exact hg t2 u2 h2)
        exact ⟨g3, hok3, by rw [hkeys3, hkeys]⟩
    | Equality t1 t2 =>
      simp only [processUsedList]
      exact ih g hg

theorem processRecords_ok (m : Model) (L : List (QiKey × QuantInstantiation)) :
    ∀ g : RawGraph, (∀ p ∈ L, isNewMatchB p.2 = true) →
    (∀ t u, term_blame m t = some u → u ∈ g.map Prod.fst) →
    ∃ g2, processRecords m g L = .ok g2 ∧ g2.map Prod.fst = g.map Prod.fst := by
  induction L with
  | nil => exact fun g _ _ => ⟨g, rfl, rfl⟩
  | cons p rest ih =>
    intro g hnm hg
    obtain ⟨qk, qi⟩ := p
    have hh := hnm (qk, qi) (List.mem_cons_self _ _)
    cases hf : qi.frame with
    | Discovered q => simp [isNewMatchB, hf] at hh
    | NewMatch q used =>
      obtain ⟨g2, hok, hkeys⟩ := processUsedList_ok m qk used g hg
      simp only [processRecords, hf, hok]
      obtain ⟨g3, hok3, hkeys3⟩ :=
        ih g2 (fun p hp => hnm p (List.mem_cons_of_mem _ hp))
          (fun t u h => by rw [hkeys]; exact hg t u h)
      exact ⟨g3, hok3, by rw [hkeys3, hkeys]⟩

theorem buildRawGraph_ok (m : Model) :
    ∃ raw, buildRawGraph m = .ok raw ∧
      raw.map Prod.fst = (quantifierInstMatches m).map Prod.fst := by
  unfold buildRawGraph
  have hkeys :
      ((quantifierInstMatches m).map (fun p => (p.1, ([] : List QiKey)))).map Prod.fst
        = (quantifierInstMatches m).map Prod.fst := by
    rw [List.map_map]; rfl
  obtain ⟨g2, hok, hk⟩ := processRecords_ok m (quantifierInstMatches m) _
    (fun p hp => (List.mem_filter.mp hp).2)
    (fun t u h => by
      rw [hkeys]
      obtain ⟨qi, hm⟩ := term_blame_mem_matches h
      exact List.mem_map.mpr ⟨(u, qi), hm, rfl⟩)
  exact ⟨g2, hok, by rw [hk, hkeys]⟩

/-- C10: neither panic branch of the graph-building pass is reachable: the
edge-creation loop never meets a `Discovered` frame and every responsible
key looked up in the intermediate adjacency is present, so the pass always
returns a raw adjacency. -/
theorem raw_graph_no_panic (m : Model) : ∃ raw, buildRawGraph m = .ok raw := by
  obtain ⟨raw, hok, _⟩ := buildRawGraph_ok m
  exact ⟨raw, hok⟩

theorem mem_insertSet {a v : QiKey} {l : List QiKey} :
    v ∈ insertSet a l ↔ v = a ∨ v ∈ l := by
  unfold insertSet
  by_cases h : a ∈ l
  · rw [if_pos h]
    constructor
    · exact Or.inr
    · rintro (rfl | hv)
      · exact h
      · exact hv
  · rw [if_neg h, List.mem_cons]

theorem make_ok_inversion {m : Model} {g : InstantiationGraph}
    (h : make_instantiation_graph m = .ok g) :
    ∃ raw, buildRawGraph m = .ok raw ∧
      g.edges = (collapseGraph raw).1 ∧ g.nodes = (collapseGraph raw).2 ∧
      resolveNames m (collapseGraph raw).2 = .ok g.names := by
  unfold make_instantiation_graph at h
  cases hb : buildRawGraph m with
  | error e =>
    simp only [hb] at h
    exact Except.noConfusion h
  | ok raw =>
    simp only [hb] at h
    cases hn : resolveNames m (collapseGraph raw).2 with
    | error e =>
      simp only [hn] at h
      exact Except.noConfusion h
    | ok names =>
      simp only [hn] at h
      cases h
      exact ⟨raw, rfl, rfl, rfl, hn⟩

theorem addEdgeResp_inv {m : Model} {g g2 : RawGraph} {resp qk : QiKey}
    (hok : addEdgeResp g resp qk = .ok g2) (hinv : RawInv m g)
    (hedge : EdgeOK m resp qk) : RawInv m g2 := by
  unfold addEdgeResp at hok
  cases hf : g.find? (fun p => decide (p.1 = resp)) with
  | none =>
    rw [hf] at hok
    exact Except.noConfusion hok
  | some p0 =>
    rw [hf] at hok
    cases hok
    intro p hp v hv
    obtain ⟨q, hq, he⟩ := List.mem_map.mp hp
    by_cases hqe : q.1 = resp
    · rw [if_pos hqe] at he
      subst he
      rcases mem_insertSet.mp hv with rfl | hv2
      · simpa [hqe] using hedge
      · exact hinv q hq v hv2
    · rw [if_neg hqe] at he
      subst he
      exact hinv q hq v hv

theorem processUsedList_inv (m : Model) (qk : QiKey) (us : List MatchedTerm) :
    ∀ g g2 : RawGraph, processUsedList m qk g us = .ok g2 →
    (∀ t, MatchedTerm.Trigger t ∈ us →
      ∀ resp, term_blame m t = some resp → EdgeOK m resp qk) →
    RawInv m g → RawInv m g2 := by
  induction us with
  | nil =>
    intro g g2 h _ hinv
    simp only [processUsedList] at h
    cases h
    exact hinv
  | cons u rest ih =>
    intro g g2 h htr hinv
    cases u with
    | Trigger t =>
      cases hb : term_blame m t with
      | none =>
        simp only [processUsedList, hb] at h
        exact ih g g2 h (fun t2 ht2 => htr t2 (List.mem_cons_of_mem _ ht2)) hinv
      | some resp =>
        cases ha : addEdgeResp g resp qk with
        | error e =>
          simp only [processUsedList, hb, ha] at h
          exact Except.noConfusion h
        | ok gmid =>
          simp only [processUsedList, hb, ha] at h
          exact ih gmid g2 h (fun t2 ht2 => htr t2 (List.mem_cons_of_mem _ ht2))
            (addEdgeResp_inv ha hinv (htr t (List.mem_cons_self _ _) resp hb))
    | Equality t1 t2 =>
      simp only [processUsedList] at h
      exact ih g g2 h (fun t2 ht2 => htr t2 (List.mem_cons_of_mem _ ht2)) hinv

theorem processRecords_inv (m : Model) (L : List (QiKey × QuantInstantiation)) :
    ∀ g g2 : RawGraph, processRecords m g L = .ok g2 →
    (∀ p ∈ L, p ∈ quantifierInstMatches m) →
    RawInv m g → RawInv m g2 := by
  induction L with
  | nil =>
    intro g g2 h _ hinv
    simp only [processRecords] at h
    cases h
    exact hinv
  | cons p rest ih =>
    intro g g2 h hsub hinv
    obtain ⟨qk, qi⟩ := p
    cases hf : qi.frame with
    | Discovered q =>
      simp only [processRecords, hf] at h
      exact Except.noConfusion h
    | NewMatch q used =>
      cases hu : processUsedList m qk g used with
      | error e =>
        simp only [processRecords, hf, hu] at h
        exact Except.noConfusion h
      | ok gmid =>
        simp only [processRecords, hf, hu] at h
        have hmem : (qk, qi) ∈ m.instantiations :=
          (List.mem_filter.mp (hsub (qk, qi) (List.mem_cons_self _ _))).1
        have hedge : ∀ t, MatchedTerm.Trigger t ∈ used →
            ∀ resp, term_blame m t = some resp → EdgeOK m resp qk :=
          fun t ht resp hb => ⟨qi, q, used, t, hmem, hf, ht, hb⟩
        exact ih gmid g2 h (fun p2 hp2 => hsub p2 (List.mem_cons_of_mem _ hp2))
          (processUsedList_inv m qk used g gmid hu hedge hinv)

theorem rawInv_init (m : Model) :
    RawInv m ((quantifierInstMatches m).map (fun p => (p.1, ([] : List QiKey)))) := by
  intro p hp v hv
  obtain ⟨q, hq, he⟩ := List.mem_map.mp hp
  rw [← he] at hv
  simp at hv

theorem buildRawGraph_inv {m : Model} {raw : RawGraph}
    (h : buildRawGraph m = .ok raw) : RawInv m raw := by
  unfold buildRawGraph at h
  exact processRecords_inv m (quantifierInstMatches m) _ raw h
    (fun p hp => hp) (rawInv_init m)

theorem upsertEdge_sub {E R : RawGraph} {src tgt : QiKey}
    (hE : EdgesSub E R) (h : ∃ p ∈ R, p.1 = src ∧ tgt ∈ p.2) :
    EdgesSub (upsertEdge E src tgt) R := by
  unfold upsertEdge
  by_cases hfind : (E.find? (fun p => decide (p.1 = src))).isSome
  · rw [if_pos hfind]
    intro q hq v hv
    obtain ⟨q0, hq0, he⟩ := List.mem_map.mp hq
    by_cases hqe : q0.1 = src
    · rw [if_pos hqe] at he
      subst he
      rcases mem_insertSet.mp hv with rfl | hv2
      · obtain ⟨p, hp, he1, he2⟩ := h
        exact ⟨p, hp, by rw [he1, hqe], he2⟩
      · exact hE q0 hq0 v hv2
    · rw [if_neg hqe] at he
      subst he
      exact hE q0 hq0 v hv
  · rw [if_neg hfind]
    intro q hq v hv
    rcases List.mem_append.mp hq with hq1 | hq2
    · exact hE q hq1 v hv
    · have hq3 : q = (src, [tgt]) := by simpa using hq2
      subst hq3
      have hv2 : v = tgt := by simpa using hv
      subst hv2
      obtain ⟨p, hp, he1, he2⟩ := h
      exact ⟨p, hp, he1, he2⟩

theorem collapseTargets_sub (src : QiKey) (R : RawGraph) (ts : List QiKey) :
    ∀ acc : RawGraph × List QiKey,
    (∀ t ∈ ts, ∃ p ∈ R, p.1 = src ∧ t ∈ p.2) →
    EdgesSub acc.1 R → EdgesSub (collapseTargets src acc ts).1 R := by
  induction ts with
  | nil => exact fun acc _ hE => hE
  | cons tgt rest ih =>
    intro acc hts hE
    simp only [collapseTargets]
    exact ih _ (fun t ht => hts t (List.mem_cons_of_mem _ ht))
      (upsertEdge_sub hE (hts tgt (List.mem_cons_self _ _)))

theorem collapseEntries_sub (R : RawGraph) (L : RawGraph) :
    ∀ acc : RawGraph × List QiKey, (∀ p ∈ L, p ∈ R) → EdgesSub acc.1 R →
    EdgesSub (collapseEntries acc L).1 R := by
  induction L with
  | nil => exact fun acc _ hE => hE
  | cons p rest ih =>
    intro acc hsub hE
    obtain ⟨src, tgts⟩ := p
    simp only [collapseEntries]
    apply ih _ (fun q hq => hsub q (List.mem_cons_of_mem _ hq))
    exact collapseTargets_sub src R tgts _
      (fun t ht => ⟨(src, tgts), hsub (src, tgts) (List.mem_cons_self _ _), rfl, ht⟩) hE

theorem collapseGraph_sub (R : RawGraph) : EdgesSub (collapseGraph R).1 R := by
  unfold collapseGraph
  apply collapseEntries_sub R R ([], []) (fun p hp => hp)
  intro q hq v hv
  simp at hq

/-- C2: every edge `(u, v)` of the produced graph comes from a `NewMatch`
record keyed `v` that used a `Trigger(t)` matched term with
`term_blame t = u`: the producer of the triggering term is the source and
the consuming instantiation the target, and `Equality` matched terms never
yield edges. -/
theorem edges_from_blamed_trigger {m : Model} {g : InstantiationGraph}
    {u v : QiKey} (hok : make_instantiation_graph m = .ok g)
    (he : g.hasEdgeB u v = true) :
    ∃ qi q used t, (v, qi) ∈ m.instantiations ∧ qi.frame = .NewMatch q used ∧
      MatchedTerm.Trigger t ∈ used ∧ term_blame m t = some u := by
  obtain ⟨raw, hraw, hedges, hnodes, hnames⟩ := make_ok_inversion hok
  unfold InstantiationGraph.hasEdgeB at he
  obtain ⟨p, hp, hpred⟩ := List.any_eq_true.mp he
  rw [Bool.and_eq_true, decide_eq_true_eq, decide_eq_true_eq] at hpred
  obtain ⟨h1, h2⟩ := hpred
  rw [hedges] at hp
  obtain ⟨p2, hp2, hfst, hv⟩ := collapseGraph_sub raw p hp v h2
  have hE := buildRawGraph_inv hraw p2 hp2 v hv
  rw [hfst, h1] at hE
  exact hE

/-- Closed instance for C2: in the example model `mAB`, the single edge
`A → B` is justified by `B` using `Trigger(5)` with `term_blame 5 = A`. -/
theorem edges_from_blamed_trigger_witness :
    make_instantiation_graph mAB = .ok gAB ∧ gAB.hasEdgeB kA kB = true ∧
      ∃ qi q used t, (kB, qi) ∈ mAB.instantiations ∧
        qi.frame = .NewMatch q used ∧ MatchedTerm.Trigger t ∈ used ∧
        term_blame mAB t = some kA :=
  ⟨by rfl, by rfl, edges_from_blamed_trigger (by rfl) (by rfl)⟩

theorem subset_insertSet {a : QiKey} {l : List QiKey} : l ⊆ insertSet a l :=
  fun _ hv => mem_insertSet.mpr (Or.inr hv)

theorem mem_insertSet_self {a : QiKey} {l : List QiKey} : a ∈ insertSet a l :=
  mem_insertSet.mpr (Or.inl rfl)

theorem insertSet_subset {a : QiKey} {l K : List QiKey} (ha : a ∈ K)
    (hl : l ⊆ K) : insertSet a l ⊆ K := by
  intro v hv
  rcases mem_insertSet.mp hv with rfl | hv2
  · exact ha
  · exact hl hv2

theorem nodesClosed_mono {E : RawGraph} {N N2 : List QiKey}
    (h : NodesClosed E N) (hsub : N ⊆ N2) : NodesClosed E N2 :=
  fun q hq => ⟨hsub (h q hq).1, fun v hv => hsub ((h q hq).2 v hv)⟩

theorem upsertEdge_closed {E : RawGraph} {N : List QiKey} {src tgt : QiKey}
    (hE : NodesClosed E N) (hs : src ∈ N) (ht : tgt ∈ N) :
    NodesClosed (upsertEdge E src tgt) N := by
  unfold upsertEdge
  by_cases hfind : (E.find? (fun p => decide (p.1 = src))).isSome
  · rw [if_pos hfind]
    intro q hq
    obtain ⟨q0, hq0, he⟩ := List.mem_map.mp hq
    by_cases hqe : q0.1 = src
    · rw [if_pos hqe] at he
      subst he
      refine ⟨(hE q0 hq0).1, fun v hv => ?_⟩
      rcases mem_insertSet.mp hv with rfl | hv2
      · exact ht
      · exact (hE q0 hq0).2 v hv2
    · rw [if_neg hqe] at he
      subst he
      exact hE q0 hq0
  · rw [if_neg hfind]
    intro q hq
    rcases List.mem_append.mp hq with hq1 | hq2
    · exact hE q hq1
    · have hq3 : q = (src, [tgt]) := by simpa using hq2
      subst hq3
      refine ⟨hs, fun v hv => ?_⟩
      have hv2 : v = tgt := by simpa using hv
      subst hv2
      exact ht

theorem collapseTargets_closed (src : QiKey) (ts : List QiKey) :
    ∀ acc : RawGraph × List QiKey, NodesClosed acc.1 acc.2 → src ∈ acc.2 →
    NodesClosed (collapseTargets src acc ts).1 (collapseTargets src acc ts).2 := by
  induction ts with
  | nil => exact fun acc h _ => h
  | cons tgt rest ih =>
    intro acc hcl hsrc
    simp only [collapseTargets]
    exact ih _
      (upsertEdge_closed (nodesClosed_mono hcl subset_insertSet)
        (subset_insertSet hsrc) mem_insertSet_self)
      (subset_insertSet hsrc)

theorem collapseEntries_closed (L : RawGraph) :
    ∀ acc : RawGraph × List QiKey, NodesClosed acc.1 acc.2 →
    NodesClosed (collapseEntries acc L).1 (collapseEntries acc L).2 := by
  induction L with
  | nil => exact fun acc h => h
  | cons p rest ih =>
    intro acc hcl
    obtain ⟨src, tgts⟩ := p
    simp only [collapseEntries]
    exact ih _ (collapseTargets_closed src tgts _
      (nodesClosed_mono hcl subset_insertSet) mem_insertSet_self)

theorem collapseGraph_closed (g : RawGraph) :
    NodesClosed (collapseGraph g).1 (collapseGraph g).2 := by
  unfold collapseGraph
  apply collapseEntries_closed
  intro q hq
  simp at hq

theorem collapseTargets_nodes_mono (src : QiKey) (ts : List QiKey) :
    ∀ acc : RawGraph × List QiKey, acc.2 ⊆ (collapseTargets src acc ts).2 := by
  induction ts with
  | nil => exact fun acc => List.Subset.refl _
  | cons tgt rest ih =>
    intro acc
    simp only [collapseTargets]
    intro v hv
    exact ih (upsertEdge acc.1 src tgt, insertSet tgt acc.2) (subset_insertSet hv)

theorem collapseEntries_nodes_mono (L : RawGraph) :
    ∀ acc : RawGraph × List QiKey, acc.2 ⊆ (collapseEntries acc L).2 := by
  induction L with
  | nil => exact fun acc => List.Subset.refl _
  | cons p rest ih =>
    intro acc
    obtain ⟨src, tgts⟩ := p
    simp only [collapseEntries]
    intro v hv
    exact ih _ (collapseTargets_nodes_mono src tgts (acc.1, insertSet src acc.2)
      (subset_insertSet hv))

theorem collapseEntries_key_mem (L : RawGraph) :
    ∀ acc : RawGraph × List QiKey, ∀ p ∈ L, p.1 ∈ (collapseEntries acc L).2 := by
  induction L with
  | nil =>
    intro acc p hp
    simp at hp
  | cons q rest ih =>
    intro acc p hp
    obtain ⟨src, tgts⟩ := q
    simp only [collapseEntries]
    rcases List.mem_cons.mp hp with rfl | hp2
    · exact collapseEntries_nodes_mono rest _
        (collapseTargets_nodes_mono src tgts _ mem_insertSet_self)
    · exact ih _ p hp2

theorem collapseTargets_nodes_sub {K : List QiKey} (src : QiKey) (ts : List QiKey) :
    ∀ acc : RawGraph × List QiKey, (∀ t ∈ ts, t ∈ K) → acc.2 ⊆ K →
    (collapseTargets src acc ts).2 ⊆ K := by
  induction ts with
  | nil => exact fun acc _ h => h
  | cons tgt rest ih =>
    intro acc hts hacc
    simp only [collapseTargets]
    exact ih _ (fun t ht => hts t (List.mem_cons_of_mem _ ht))
      (insertSet_subset (hts tgt (List.mem_cons_self _ _)) hacc)

theorem collapseEntries_nodes_sub {K : List QiKey} (L : RawGraph) :
    ∀ acc : RawGraph × List QiKey,
    (∀ p ∈ L, p.1 ∈ K ∧ ∀ v ∈ p.2, v ∈ K) → acc.2 ⊆ K →
    (collapseEntries acc L).2 ⊆ K := by
  induction L with
  | nil => exact fun acc _ h => h
  | cons p rest ih =>
    intro acc hL hacc
    obtain ⟨src, tgts⟩ := p
    simp only [collapseEntries]
    exact ih _ (fun q hq => hL q (List.mem_cons_of_mem _ hq))
      (collapseTargets_nodes_sub src tgts _
        (hL (src, tgts) (List.mem_cons_self _ _)).2
        (insertSet_subset (hL (src, tgts) (List.mem_cons_self _ _)).1 hacc))

theorem resolveNames_ok_mem {m : Model} {ks : List QiKey}
    {nms : List (QiKey × String)} (h : resolveNames m ks = .ok nms) :
    (∀ k ∈ ks, ∃ s, resolveName m k = .ok s ∧ (k, s) ∈ nms) ∧
    (∀ p ∈ nms, p.1 ∈ ks ∧ resolveName m p.1 = .ok p.2) := by
  induction ks generalizing nms with
  | nil =>
    simp only [resolveNames] at h
    cases h
    exact ⟨by simp, by simp⟩
  | cons k rest ih =>
    cases hr : resolveName m k with
    | error e =>
      simp only [resolveNames, hr] at h
      exact Except.noConfusion h
    | ok s =>
      cases hrest : resolveNames m rest with
      | error e =>
        simp only [resolveNames, hr, hrest] at h
        exact Except.noConfusion h
      | ok nms2 =>
        simp only [resolveNames, hr, hrest] at h
        cases h
        obtain ⟨ih1, ih2⟩ := ih hrest
        constructor
        · intro k2 hk2
          rcases List.mem_cons.mp hk2 with rfl | hk3
          · exact ⟨s, hr, List.mem_cons_self _ _⟩
          · obtain ⟨s2, hs2, hm2⟩ := ih1 k2 hk3
            exact ⟨s2, hs2, List.mem_cons_of_mem _ hm2⟩
        · intro p hp
          rcases List.mem_cons.mp hp with rfl | hp2
          · exact ⟨List.mem_cons_self _ _, hr⟩
          · obtain ⟨h1, h2⟩ := ih2 p hp2
            exact ⟨List.mem_cons_of_mem _ h1, h2⟩

theorem resolveNames_error {m : Model} {ks : List QiKey} {k : QiKey}
    {e0 : BuildError} (hk : k ∈ ks) (he : resolveName m k = .error e0) :
    ∃ e, resolveNames m ks = .error e := by
  induction ks with
  | nil => simp at hk
  | cons k2 rest ih =>
    rcases List.mem_cons.mp hk with rfl | hk2
    · simp only [resolveNames, he]
      exact ⟨e0, rfl⟩
    · cases hr : resolveName m k2 with
      | error e2 =>
        simp only [resolveNames, hr]
        exact ⟨e2, rfl⟩
      | ok s =>
        obtain ⟨e, hee⟩ := ih hk2
        simp only [resolveNames, hr, hee]
        exact ⟨e, rfl⟩

/-- C5: in every produced graph, each key occurring in `edges` — as a
source or inside a target set — is in `nodes` and has a `names` entry, and
the domain of `names` is exactly `nodes`. -/
theorem graph_closed_names_exact {m : Model} {g : InstantiationGraph}
    (hok : make_instantiation_graph m = .ok g) :
    (∀ q ∈ g.edges, (q.1 ∈ g.nodes ∧ ∃ s, (q.1, s) ∈ g.names) ∧
      ∀ v ∈ q.2, v ∈ g.nodes ∧ ∃ s, (v, s) ∈ g.names) ∧
    (∀ k ∈ g.nodes, ∃ s, (k, s) ∈ g.names) ∧
    (∀ p ∈ g.names, p.1 ∈ g.nodes) := by
  obtain ⟨raw, hraw, hedges, hnodes, hnames⟩ := make_ok_inversion hok
  have hcl : NodesClosed g.edges g.nodes := by
    rw [hedges, hnodes]
    exact collapseGraph_closed raw
  have hres : resolveNames m g.nodes = .ok g.names := by
    rw [hnodes]
    exact hnames
  obtain ⟨hn1, hn2⟩ := resolveNames_ok_mem hres
  refine ⟨?_, ?_, ?_⟩
  · intro q hq
    obtain ⟨hq1, hq2⟩ := hcl q hq
    refine ⟨⟨hq1, ?_⟩, fun v hv => ⟨hq2 v hv, ?_⟩⟩
    · obtain ⟨s, _, hm2⟩ := hn1 q.1 hq1
      exact ⟨s, hm2⟩
    · obtain ⟨s, _, hm2⟩ := hn1 v (hq2 v hv)
      exact ⟨s, hm2⟩
  · intro k hk
    obtain ⟨s, _, hm2⟩ := hn1 k hk
    exact ⟨s, hm2⟩
  · intro p hp
    exact (hn2 p hp).1

/-- Closed instance for C5 at the example model `mAB`. -/
theorem graph_closed_names_exact_witness :
    (∀ q ∈ gAB.edges, (q.1 ∈ gAB.nodes ∧ ∃ s, (q.1, s) ∈ gAB.names) ∧
      ∀ v ∈ q.2, v ∈ gAB.nodes ∧ ∃ s, (v, s) ∈ gAB.names) ∧
    (∀ k ∈ gAB.nodes, ∃ s, (k, s) ∈ gAB.names) ∧
    (∀ p ∈ gAB.names, p.1 ∈ gAB.nodes) :=
  graph_closed_names_exact (m := mAB) (by rfl)

/-- C6: every `NewMatch` instantiation key is a node of the produced graph
even when no edge touches it; in particular in `mUnk`, whose only record
`D` uses `Trigger(42)` with no traced producer, no edge is added and `D`
is still a node. -/
theorem newmatch_keys_are_nodes :
    (∀ (m : Model) (g : InstantiationGraph) (k : QiKey) (qi : QuantInstantiation),
      (k, qi) ∈ m.instantiations → isNewMatchB qi = true →
      make_instantiation_graph m = .ok g → k ∈ g.nodes) ∧
    make_instantiation_graph mUnk = .ok gUnk ∧
    gUnk.nodes = [kD] ∧ gUnk.edges = [] := by
  refine ⟨?_, by rfl, by rfl, by rfl⟩
  intro m g k qi hm hnm hok
  obtain ⟨raw, hraw, hedges, hnodes, hnames⟩ := make_ok_inversion hok
  obtain ⟨raw2, hok2, hkeys⟩ := buildRawGraph_ok m
  rw [hraw] at hok2
  cases hok2
  have hk : k ∈ raw.map Prod.fst := by
    rw [hkeys]
    exact List.mem_map.mpr ⟨(k, qi), List.mem_filter.mpr ⟨hm, hnm⟩, rfl⟩
  obtain ⟨p, hp, hpe⟩ := List.mem_map.mp hk
  rw [hnodes, ← hpe]
  exact collapseEntries_key_mem raw ([], []) p hp

/-- Closed instance for C6: the isolated record `D` of `mUnk` is a node. -/
theorem newmatch_keys_are_nodes_witness :
    (kD, (⟨.NewMatch 100 [.Trigger 42], []⟩ : QuantInstantiation)) ∈
        mUnk.instantiations ∧
      make_instantiation_graph mUnk = .ok gUnk ∧ kD ∈ gUnk.nodes :=
  ⟨by decide, by rfl,
    newmatch_keys_are_nodes.1 mUnk gUnk kD ⟨.NewMatch 100 [.Trigger 42], []⟩
      (by decide) (by rfl) (by rfl)⟩

theorem nodup_keys_eq {L : List (QiKey × QuantInstantiation)}
    (hnd : (L.map Prod.fst).Nodup) {k : QiKey} {a b : QuantInstantiation}
    (ha : (k, a) ∈ L) (hb : (k, b) ∈ L) : a = b := by
  induction L with
  | nil => simp at ha
  | cons p rest ih =>
    simp only [List.map_cons, List.nodup_cons] at hnd
    rcases List.mem_cons.mp ha with h1 | h1 <;> rcases List.mem_cons.mp hb with h2 | h2
    · have h3 := h1.trans h2.symm
      cases h3
      rfl
    · exfalso
      apply hnd.1
      rw [← h1]
      exact List.mem_map.mpr ⟨(k, b), h2, rfl⟩
    · exfalso
      apply hnd.1
      rw [← h2]
      exact List.mem_map.mpr ⟨(k, a), h1, rfl⟩
    · exact ih hnd.2 h1 h2

/-- C4: under the well-formedness of the backing `BTreeMap` (distinct
keys), the key of a `Discovered` record is not a node of the produced
graph, appears neither as a source nor inside a target set of any edge,
and has no `names` entry. -/
theorem discovered_excluded {m : Model} {g : InstantiationGraph} {k : QiKey}
    {qi : QuantInstantiation} (hwf : m.WF) (hm : (k, qi) ∈ m.instantiations)
    (hd : ∃ tq, qi.frame = QiFrame.Discovered tq)
    (hok : make_instantiation_graph m = .ok g) :
    k ∉ g.nodes ∧ (∀ q ∈ g.edges, q.1 ≠ k ∧ k ∉ q.2) ∧
      (∀ p ∈ g.names, p.1 ≠ k) := by
  obtain ⟨raw, hraw, hedges, hnodes, hnames⟩ := make_ok_inversion hok
  obtain ⟨raw2, hok2, hkeys⟩ := buildRawGraph_ok m
  rw [hraw] at hok2
  cases hok2
  have hknot : k ∉ (quantifierInstMatches m).map Prod.fst := by
    intro hcontra
    obtain ⟨p2, hp2, hpe⟩ := List.mem_map.mp hcontra
    obtain ⟨k2, qi2⟩ := p2
    cases hpe
    have hf2 := List.mem_filter.mp hp2
    have heq : qi2 = qi := nodup_keys_eq hwf hf2.1 hm
    obtain ⟨tq, htq⟩ := hd
    rw [heq] at hf2
    simp [isNewMatchB, htq] at hf2
  have hinv := buildRawGraph_inv hraw
  have hsub : g.nodes ⊆ (quantifierInstMatches m).map Prod.fst := by
    rw [hnodes]
    apply collapseEntries_nodes_sub raw ([], [])
    · intro p hp
      constructor
      · rw [← hkeys]
        exact List.mem_map.mpr ⟨p, hp, rfl⟩
      · intro v hv
        obtain ⟨qi2, q2, used2, t2, hm2, hf2, _, _⟩ := hinv p hp v hv
        refine List.mem_map.mpr ⟨(v, qi2), List.mem_filter.mpr ⟨hm2, ?_⟩, rfl⟩
        simp [isNewMatchB, hf2]
    · intro v hv
      simp at hv
  have hkn : k ∉ g.nodes := fun hkn => hknot (hsub hkn)
  have hcl : NodesClosed g.edges g.nodes := by
    rw [hedges, hnodes]
    exact collapseGraph_closed raw
  have hres : resolveNames m g.nodes = .ok g.names := by
    rw [hnodes]
    exact hnames
  refine ⟨hkn, ?_, ?_⟩
  · intro q hq
    obtain ⟨hq1, hq2⟩ := hcl q hq
    exact ⟨fun he => hkn (he ▸ hq1), fun hke => hkn (hq2 k hke)⟩
  · intro p hp
    intro he
    exact hkn (he ▸ ((resolveNames_ok_mem hres).2 p hp).1)

/-- Closed instance for C4: the `Discovered` record `C` of `mDisc` is
absent from nodes, edges and names. -/
theorem discovered_excluded_witness :
    mDisc.WF ∧ make_instantiation_graph mDisc = .ok gDisc ∧
      kC ∉ gDisc.nodes ∧ (∀ q ∈ gDisc.edges, q.1 ≠ kC ∧ kC ∉ q.2) ∧
      (∀ p ∈ gDisc.names, p.1 ≠ kC) :=
  ⟨show (mDisc.instantiations.map Prod.fst).Nodup by decide, by rfl,
    @discovered_excluded mDisc gDisc kC ⟨.Discovered 102, []⟩
      (show (mDisc.instantiations.map Prod.fst).Nodup by decide) (by decide)
      ⟨102, by rfl⟩ (by rfl)⟩

/-- C9: a node whose name resolution fails (missing instantiation lookup,
unresolvable quantifier reference / term lookup, or missing term name)
makes the whole graph construction return an error; and a successfully
produced graph resolves and records a name for every node, so no node is
silently dropped. -/
theorem name_resolution_fatal (m : Model) :
    (∀ (raw : RawGraph) (k : QiKey) (e : BuildError),
      buildRawGraph m = .ok raw → k ∈ (collapseGraph raw).2 →
      resolveName m k = .error e →
      ∃ e2, make_instantiation_graph m = .error e2) ∧
    (∀ g : InstantiationGraph, make_instantiation_graph m = .ok g →
      ∀ k ∈ g.nodes, ∃ s, resolveName m k = .ok s ∧ (k, s) ∈ g.names) := by
  constructor
  · intro raw k e hraw hk hre
    obtain ⟨e2, he2⟩ := resolveNames_error hk hre
    refine ⟨e2, ?_⟩
    unfold make_instantiation_graph
    simp only [hraw, he2]
  · intro g hok k hk
    obtain ⟨raw, hraw, hedges, hnodes, hnames⟩ := make_ok_inversion hok
    have hres : resolveNames m g.nodes = .ok g.names := by
      rw [hnodes]
      exact hnames
    exact (resolveNames_ok_mem hres).1 k hk

/-- Closed instance for C9: in `mFail` the quantifier reference `999` has
no term-table entry, and graph construction aborts with an error. -/
theorem name_resolution_fatal_witness :
    buildRawGraph mFail = .ok [(kA, [])] ∧
      resolveName mFail kA = .error .termNotFound ∧
      ∃ e2, make_instantiation_graph mFail = .error e2 :=
  ⟨by rfl, by rfl,
    (name_resolution_fatal mFail).1 [(kA, [])] kA .termNotFound
      (by rfl) (by decide) (by rfl)⟩

theorem perm_insertAsc (a : QuantCost) (l : List QuantCost) :
    List.Perm (insertAsc a l) (a :: l) := by
  induction l with
  | nil => exact List.Perm.refl _
  | cons b t ih =>
    unfold insertAsc
    by_cases h : mulKey a ≤ mulKey b
    · rw [if_pos h]
    · rw [if_neg h]
      exact (List.Perm.cons b ih).trans (List.Perm.swap a b t)

theorem perm_sortByKeyAsc (l : List QuantCost) : List.Perm (sortByKeyAsc l) l := by
  induction l with
  | nil => exact List.Perm.refl _
  | cons a t ih =>
    simp only [sortByKeyAsc]
    exact (perm_insertAsc a (sortByKeyAsc t)).trans (List.Perm.cons a ih)

theorem sorted_insertAsc {a : QuantCost} {l : List QuantCost}
    (h : List.Sorted (fun x y => mulKey x ≤ mulKey y) l) :
    List.Sorted (fun x y => mulKey x ≤ mulKey y) (insertAsc a l) := by
  induction l with
  | nil => simp [insertAsc]
  | cons b t ih =>
    rw [List.sorted_cons] at h
    obtain ⟨hb, ht⟩ := h
    unfold insertAsc
    by_cases hab : mulKey a ≤ mulKey b
    · rw [if_pos hab, List.sorted_cons]
      refine ⟨?_, List.sorted_cons.mpr ⟨hb, ht⟩⟩
      intro c hc
      rcases List.mem_cons.mp hc with rfl | hct
      · exact hab
      · exact le_trans hab (hb c hct)
    · rw [if_neg hab, List.sorted_cons]
      refine ⟨?_, ih ht⟩
      intro c hc
      rcases List.mem_cons.mp ((perm_insertAsc a t).mem_iff.mp hc) with rfl | hct
      · exact Nat.le_of_not_le hab
      · exact hb c hct

theorem sorted_sortByKeyAsc (l : List QuantCost) :
    List.Sorted (fun x y => mulKey x ≤ mulKey y) (sortByKeyAsc l) := by
  induction l with
  | nil => simp [sortByKeyAsc]
  | cons a t ih =>
    simp only [sortByKeyAsc]
    exact sorted_insertAsc ih

theorem filter_insertAsc_pos {a : QuantCost} {c : Nat} (l : List QuantCost)
    (h : mulKey a = c) :
    (insertAsc a l).filter (fun v => decide (mulKey v = c)) =
      a :: l.filter (fun v => decide (mulKey v = c)) := by
  induction l with
  | nil => simp [insertAsc, h]
  | cons b t ih =>
    unfold insertAsc
    by_cases hab : mulKey a ≤ mulKey b
    · rw [if_pos hab, List.filter_cons_of_pos (by simp [h])]
    · rw [if_neg hab]
      have hbc : ¬ mulKey b = c := fun hbc => hab (by rw [h, hbc])
      rw [List.filter_cons_of_neg (by simp [hbc]), ih,
        List.filter_cons_of_neg (by simp [hbc])]

theorem filter_insertAsc_neg {a : QuantCost} {c : Nat} (l : List QuantCost)
    (h : ¬ mulKey a = c) :
    (insertAsc a l).filter (fun v => decide (mulKey v = c)) =
      l.filter (fun v => decide (mulKey v = c)) := by
  induction l with
  | nil => simp [insertAsc, h]
  | cons b t ih =>
    unfold insertAsc
    by_cases hab : mulKey a ≤ mulKey b
    · rw [if_pos hab, List.filter_cons_of_neg (by simp [h])]
    · rw [if_neg hab]
      by_cases hbc : mulKey b = c
      · rw [List.filter_cons_of_pos (by simp [hbc]), ih,
          List.filter_cons_of_pos (by simp [hbc])]
      · rw [List.filter_cons_of_neg (by simp [hbc]), ih,
          List.filter_cons_of_neg (by simp [hbc])]

theorem filter_sortByKeyAsc (c : Nat) (l : List QuantCost) :
    (sortByKeyAsc l).filter (fun v => decide (mulKey v = c)) =
      l.filter (fun v => decide (mulKey v = c)) := by
  induction l with
  | nil => rfl
  | cons a t ih =>
    simp only [sortByKeyAsc]
    by_cases h : mulKey a = c
    · rw [filter_insertAsc_pos _ h, ih, List.filter_cons_of_pos (by simp [h])]
    · rw [filter_insertAsc_neg _ h, ih, List.filter_cons_of_neg (by simp [h])]

/-- C1 counterexample: two distinct entries with equal product 20 come out
in the opposite of their input order, refuting the claim that tied entries
keep their relative input order. -/
theorem ranked_tie_order_cex :
    mulKey tieQ1 = mulKey tieQ2 ∧ tieQ1 ≠ tieQ2 ∧
      rankedQuantifierCosts [tieQ1, tieQ2] = [tieQ2, tieQ1] := by decide

/-- C1 (amended): the ranked sequence is sorted descending by the `u64`
product `instantiations * cost` and is a permutation of the input, but
entries with equal product appear in the reverse of their input order (the
stable ascending sort is reversed as a whole). -/
theorem ranked_sorted_desc_ties_reversed (l : List QuantCost) :
    List.Sorted (fun x y => mulKey y ≤ mulKey x) (rankedQuantifierCosts l) ∧
    List.Perm (rankedQuantifierCosts l) l ∧
    ∀ c, (rankedQuantifierCosts l).filter (fun v => decide (mulKey v = c)) =
      (l.filter (fun v => decide (mulKey v = c))).reverse := by
  refine ⟨?_, ?_, ?_⟩
  · unfold rankedQuantifierCosts
    exact List.pairwise_reverse.mpr (sorted_sortByKeyAsc l)
  · exact (List.reverse_perm _).trans (perm_sortByKeyAsc l)
  · intro c
    unfold rankedQuantifierCosts
    rw [List.filter_reverse, filter_sortByKeyAsc]

theorem total_instantiations_eq (stats : List QuantCost) :
    total_instantiations stats = (stats.map QuantCost.instantiations).sum % W := by
  have hgen : ∀ (l : List QuantCost) (acc : Nat),
      l.foldl (fun a c => (a + c.instantiations) % W) (acc % W) =
        (acc + (l.map QuantCost.instantiations).sum) % W := by
    intro l
    induction l with
    | nil => intro acc; simp
    | cons c t ih =>
      intro acc
      simp only [List.foldl, List.map_cons, List.sum_cons]
      rw [Nat.mod_add_mod, ih, Nat.add_assoc]
  have h0 := hgen stats 0
  simp only [Nat.zero_mod, Nat.zero_add] at h0
  exact h0

theorem printLoop_pos {total : Nat} (h : total ≠ 0) (stats : List QuantCost) :
    printLoop total stats = some (stats.map (fun c =>
      ⟨c.quant, c.instantiations, 100 * c.instantiations % W / total⟩)) := by
  induction stats with
  | nil => rfl
  | cons c t ih => simp [printLoop, h, ih]

theorem printLoop_zero {stats : List QuantCost} (h : stats ≠ []) :
    printLoop 0 stats = none := by
  cases stats with
  | nil => exact absurd rfl h
  | cons c t => simp [printLoop]

/-- C7: when the total does not vanish (and no `u64` wrap-around occurs),
each reported percentage is `100 * instantiations / totalInstantiations`
with truncating integer division, `totalInstantiations` being the sum over
all entries; the two-entry scenario of the spec totals 15 and reports 66% for
`Q1` and 33% for `Q2`. -/
theorem stats_percentage_formula :
    (∀ stats : List QuantCost, (stats.map QuantCost.instantiations).sum < W →
      (stats.map QuantCost.instantiations).sum ≠ 0 →
      (∀ c ∈ stats, 100 * c.instantiations < W) →
      print_stats stats = some (stats.map (fun c =>
        ⟨c.quant, c.instantiations,
          100 * c.instantiations / (stats.map QuantCost.instantiations).sum⟩))) ∧
    total_instantiations (rankedQuantifierCosts [exQ1, exQ2]) = 15 ∧
    print_stats (rankedQuantifierCosts [exQ1, exQ2]) =
      some [⟨"Q2", 5, 33⟩, ⟨"Q1", 10, 66⟩] := by
  refine ⟨?_, by rfl, by rfl⟩
  intro stats hlt hne hb
  unfold print_stats
  have htot : total_instantiations stats = (stats.map QuantCost.instantiations).sum := by
    rw [total_instantiations_eq]
    exact Nat.mod_eq_of_lt hlt
  rw [htot, printLoop_pos hne]
  congr 1
  apply List.map_congr_left
  intro c hc
  rw [Nat.mod_eq_of_lt (hb c hc)]

/-- Closed instance for C7: shares 25% and 75% out of a total of 8. -/
theorem stats_percentage_formula_witness :
    print_stats [⟨"A", 2, 3⟩, ⟨"B", 6, 1⟩] =
      some [⟨"A", 2, 25⟩, ⟨"B", 6, 75⟩] :=
  stats_percentage_formula.1 [⟨"A", 2, 3⟩, ⟨"B", 6, 1⟩]
    (by decide) (by decide) (by decide)

/-- C8 counterexample: with no entries the total is zero, yet the report
loop never divides and `print_stats` completes without aborting. -/
theorem print_stats_empty_cex :
    total_instantiations [] = 0 ∧ print_stats [] = some [] :=
  ⟨rfl, rfl⟩

/-- C8 (amended): when the total of instantiations is zero and at least one
entry exists, the percentage computation divides by zero and the report
aborts — it is not special-cased to report 0%. -/
theorem print_stats_zero_total_aborts (stats : List QuantCost)
    (hne : stats ≠ []) (h0 : total_instantiations stats = 0) :
    print_stats stats = none := by
  unfold print_stats
  rw [h0]
  exact printLoop_zero hne

/-- Closed instance for C8: one entry with zero instantiations. -/
theorem print_stats_zero_total_aborts_witness :
    ([⟨"Q", 0, 5⟩] : List QuantCost) ≠ [] ∧
      total_instantiations [⟨"Q", 0, 5⟩] = 0 ∧
      print_stats [⟨"Q", 0, 5⟩] = none :=
  ⟨by decide, by rfl, print_stats_zero_total_aborts _ (by decide) (by rfl)⟩
